import Mathlib

/-!
Shallow embedding of the grocery-store simulation core
(`store.py`: `GroceryStore`, `Customer`, `Item`, `CheckoutLine` and its
variants; `container.py`: `PriorityQueue`).

Python objects become Lean structures; mutating methods become functions
returning the updated value (paired with the Python return value where the
method has one); the fallible `enter_line` returns the untouched store and
`none` in place of raising `NoAvailableLineError`.
-/

/-- `Item` from store.py: a name and the checkout time contribution
(`time > 0` is a documented precondition, not enforced by the code). -/
structure Item where
  name : String
  time : Nat
  deriving DecidableEq, Repr

/-- `Customer` from store.py.  `__init__` copies the item list and sets both
timestamps to `None`; Lean's value semantics make the copy implicit. -/
structure Customer where
  name : String
  arrival_time : Option Nat := none
  checkout_time : Option Nat := none
  items : List Item
  deriving DecidableEq, Repr

/-- `Customer.num_items`: `len(self._items)`. -/
def Customer.num_items (c : Customer) : Nat :=
  c.items.length

/-- `Customer.item_time`: the accumulation loop `time += item.time` over
`self._items`, starting from `0`. -/
def Customer.item_time (c : Customer) : Nat :=
  c.items.foldl (fun t i => t + i.time) 0

/-- `EXPRESS_LIMIT = 7` from store.py (module-level constant). -/
def EXPRESS_LIMIT : Nat := 7

/-- The three concrete subclasses of `CheckoutLine` in store.py.  None of
them overrides `can_accept`, `accept`, `remove_front_customer` or `close`;
only `next_checkout_time` differs. -/
inductive LineKind where
  | regular
  | express
  | selfServe
  deriving DecidableEq, Repr

/-- `CheckoutLine` (with the subclass recorded as `kind`): capacity,
open flag, and the FIFO queue `_queue` (front = head). -/
structure CheckoutLine where
  kind : LineKind
  capacity : Nat
  is_open : Bool
  queue : List Customer
  deriving DecidableEq, Repr

/-- `CheckoutLine.__init__(capacity)`: open, empty queue. -/
def CheckoutLine.mkLine (kind : LineKind) (capacity : Nat) : CheckoutLine :=
  { kind := kind, capacity := capacity, is_open := true, queue := [] }

/-- `CheckoutLine.can_accept(customer)` from store.py:
`if len(self._queue) < self.capacity and self.is_open: return True; return False`.
No subclass overrides this method, so the customer argument is unused —
in particular `ExpressLine` never consults `EXPRESS_LIMIT`. -/
def CheckoutLine.can_accept (l : CheckoutLine) (_c : Customer) : Bool :=
  if l.queue.length < l.capacity ∧ l.is_open = true then true else false

/-- `CheckoutLine.accept(customer)`: append to the back when `can_accept`,
else leave unchanged; the Bool is the Python return value. -/
def CheckoutLine.accept (l : CheckoutLine) (c : Customer) : CheckoutLine × Bool :=
  if l.can_accept c then ({ l with queue := l.queue ++ [c] }, true) else (l, false)

/-- `CheckoutLine.first_in_line()`: `None` when empty, else `self._queue[0]`. -/
def CheckoutLine.first_in_line (l : CheckoutLine) : Option Customer :=
  if l.queue.length = 0 then none else l.queue.head?

/-- `next_checkout_time` of the three subclasses (each checks
`len(self) == 0` first, then returns the front customer's `item_time`,
doubled by `SelfServeLine`). -/
def CheckoutLine.next_checkout_time (l : CheckoutLine) : Nat :=
  match l.kind with
  | LineKind.regular =>
      if l.queue.length = 0 then 0 else ((l.first_in_line).map Customer.item_time).getD 0
  | LineKind.express =>
      if l.queue.length = 0 then 0 else ((l.first_in_line).map Customer.item_time).getD 0
  | LineKind.selfServe =>
      if l.queue.length = 0 then 0 else 2 * ((l.first_in_line).map Customer.item_time).getD 0

/-- `CheckoutLine.remove_front_customer()`: returns 0 on an empty queue;
otherwise rebuilds `_queue` from the elements at indices `1..len-1`
(i.e. drops the front) and returns the new length. -/
def CheckoutLine.remove_front_customer (l : CheckoutLine) : CheckoutLine × Nat :=
  if l.queue.length = 0 then (l, 0)
  else ({ l with queue := l.queue.drop 1 }, (l.queue.drop 1).length)

/-- `CheckoutLine.close()`: set `is_open = False`, collect the customers at
indices `1..len-1` (the evicted list, returned), and keep `[self._queue[0]]`
when non-empty, `[]` when empty. -/
def CheckoutLine.close (l : CheckoutLine) : CheckoutLine × List Customer :=
  ({ l with
      is_open := false
      queue := if l.queue.length = 0 then [] else l.queue.take 1 },
    l.queue.drop 1)

/-- The `CheckoutLine` methods as state transformers, for stating
invariant-preservation over arbitrary call sequences.  `first_in_line` and
`can_accept` never write to `self` in store.py, so they act as the identity
on the line's state. -/
inductive LineOp where
  | acceptOp (c : Customer)
  | removeFrontOp
  | closeOp
  | firstInLineOp
  | canAcceptOp (c : Customer)
  deriving DecidableEq, Repr

/-- Apply one method call to a line and keep the post-state. -/
def applyLineOp (op : LineOp) (l : CheckoutLine) : CheckoutLine :=
  match op with
  | LineOp.acceptOp c => (l.accept c).1
  | LineOp.removeFrontOp => (l.remove_front_customer).1
  | LineOp.closeOp => (l.close).1
  | LineOp.firstInLineOp => l
  | LineOp.canAcceptOp _ => l

/-- Apply a sequence of method calls, left to right. -/
def applyLineOps (ops : List LineOp) (l : CheckoutLine) : CheckoutLine :=
  ops.foldl (fun acc op => applyLineOp op acc) l

/-- `GroceryStore` from store.py. -/
structure GroceryStore where
  num_lines : Nat
  line_capacity : Nat
  checkout_lines : List CheckoutLine
  deriving DecidableEq, Repr

/-- `GroceryStore.__init__`: `regular_count` regular lines, then
`express_count` express lines, then `self_serve_count` self-serve lines
(the three append loops), all with capacity `line_capacity`;
`num_lines` is their sum. -/
def GroceryStore.init (regular_count express_count self_serve_count line_capacity : Nat) :
    GroceryStore :=
  { num_lines := regular_count + express_count + self_serve_count
    line_capacity := line_capacity
    checkout_lines :=
      List.replicate regular_count (CheckoutLine.mkLine LineKind.regular line_capacity) ++
      List.replicate express_count (CheckoutLine.mkLine LineKind.express line_capacity) ++
      List.replicate self_serve_count (CheckoutLine.mkLine LineKind.selfServe line_capacity) }

/-- The scan loop of `GroceryStore.enter_line`: `i` is the index of the head
of the remaining list; `best = (line_index, position)` is the accumulator,
updated to `(i, len)` exactly when line `i` can accept and its length
strictly beats `position`. -/
def enterLineScan (c : Customer) : List CheckoutLine → Nat → Nat × Nat → Nat × Nat
  | [], _, best => best
  | l :: rest, i, best =>
      enterLineScan c rest (i + 1)
        (if l.can_accept c then
          (if l.queue.length < best.2 then (i, l.queue.length) else best)
        else best)

/-- The tail of `GroceryStore.enter_line` after the scan: when
`line_index < num_lines` the scan found a line, so `accept` the customer
there and return the index; otherwise return the store unchanged with `none`
(the `raise NoAvailableLineError` branch).  The `none` lookup arm is dead
code under the representation invariant `num_lines = len(checkout_lines)`. -/
def enterLineFinish (s : GroceryStore) (c : Customer) (best : Nat × Nat) :
    GroceryStore × Option Nat :=
  if best.1 < s.num_lines then
    match s.checkout_lines[best.1]? with
    | some line =>
        ({ s with checkout_lines := s.checkout_lines.set best.1 (line.accept c).1 },
          some best.1)
    | none => (s, none)
  else (s, none)

/-- `GroceryStore.enter_line(customer)`: run the scan seeded with
`line_index = num_lines` and `position = line_capacity`, then accept at the
found index or fail.  The loop bound `num_lines` equals
`len(checkout_lines)` by the class's representation invariant, so the scan
walks `checkout_lines`. -/
def GroceryStore.enter_line (s : GroceryStore) (c : Customer) : GroceryStore × Option Nat :=
  enterLineFinish s c (enterLineScan c s.checkout_lines 0 (s.num_lines, s.line_capacity))

/-- The representation invariants documented on `GroceryStore`:
`num_lines == len(checkout_lines)` and every line's capacity equals
`line_capacity`. -/
def GroceryStore.WF (s : GroceryStore) : Prop :=
  s.num_lines = s.checkout_lines.length ∧
    ∀ l ∈ s.checkout_lines, l.capacity = s.line_capacity

instance (s : GroceryStore) : Decidable s.WF := by
  unfold GroceryStore.WF
  infer_instance

/-!  `PriorityQueue` from container.py.  The internal list `_items` keeps the
highest-priority (smallest) element at index 0; `add` is the insertion loop,
`remove` is `pop(0)`.  The element comparison is passed in as `lt`, matching
the Python duck-typed `<`. -/

/-- `PriorityQueue.add(item)`: when empty, append; otherwise scan from the
front and insert immediately before the first element `y` with `item < y`
(never before an equal element); when no such element exists, append at the
end.  The while loop becomes structural recursion on the item list. -/
def PriorityQueue.add {α : Type} (lt : α → α → Bool) (item : α) : List α → List α
  | [] => [item]
  | y :: ys => if lt item y then item :: y :: ys else y :: PriorityQueue.add lt item ys

/-- `PriorityQueue.remove()`: `self._items.pop(0)`; `none` models the
precondition violation on an empty queue. -/
def PriorityQueue.remove {α : Type} : List α → Option (α × List α)
  | [] => none
  | x :: xs => some (x, xs)

/-- `PriorityQueue.is_empty()`: `len(self._items) == 0`. -/
def PriorityQueue.is_empty {α : Type} (items : List α) : Bool :=
  items.length = 0

/-- Comparison used when the queued elements are (priority, insertion-tag)
pairs: the Python `<` looks only at the element itself (the priority); the
tag is bookkeeping we add to speak about insertion order. -/
def prioLt {α : Type} [LinearOrder α] (a b : α × Nat) : Bool :=
  decide (a.1 < b.1)

/-- A sequence of `add` calls: insert the priorities `ps` in order, tagging
the n-th insertion with tag `n`. -/
def pqAddAll {α : Type} [LinearOrder α] : List α → Nat → List (α × Nat) → List (α × Nat)
  | [], _, q => q
  | p :: ps, n, q => pqAddAll ps (n + 1) (PriorityQueue.add prioLt (p, n) q)

/-- The inserted items of `pqAddAll ps n q` beyond `q`: priorities `ps`
tagged `n, n+1, ...` in order. -/
def tagFrom {α : Type} : List α → Nat → List (α × Nat)
  | [], _ => []
  | p :: ps, n => (p, n) :: tagFrom ps (n + 1)

/-- Successive `remove()` calls until empty: each pops the front, so the
returned sequence is the queue list itself, front first. -/
def pqRemoveAll {α : Type} : List α → List α
  | [] => []
  | x :: xs => x :: pqRemoveAll xs

/-- Each draining step is exactly one `remove()` call. -/
theorem pqRemoveAll_step {α : Type} (x : α) (xs : List α) :
    PriorityQueue.remove (x :: xs) = some (x, xs) ∧
      pqRemoveAll (x :: xs) = x :: pqRemoveAll xs :=
  ⟨rfl, rfl⟩

/-- Strict "earlier in the queue" order on tagged elements: strictly higher
priority, or equal priority and inserted earlier. -/
def prioTagLt {α : Type} [LinearOrder α] (a b : α × Nat) : Prop :=
  a.1 < b.1 ∨ (a.1 = b.1 ∧ a.2 < b.2)

/-!  Helper lemmas about the priority queue. -/

/-- `add` produces a permutation of consing the new item. -/
theorem PriorityQueue.add_perm {α : Type} (lt : α → α → Bool) (x : α) (l : List α) :
    List.Perm (PriorityQueue.add lt x l) (x :: l) := by
  induction l with
  | nil => simp [PriorityQueue.add]
  | cons y ys ih =>
      by_cases h : lt x y
      · simp [PriorityQueue.add, h]
      · simp only [PriorityQueue.add, h, if_false]
        exact (ih.cons y).trans (List.Perm.swap x y ys)

/-- Inserting an element whose tag is larger than every tag present keeps
the queue strictly ordered by `prioTagLt`. -/
theorem PriorityQueue.add_pairwise {α : Type} [LinearOrder α] (x : α × Nat)
    (l : List (α × Nat)) (hpw : l.Pairwise prioTagLt) (htag : ∀ y ∈ l, y.2 < x.2) :
    (PriorityQueue.add prioLt x l).Pairwise prioTagLt := by
  induction l with
  | nil => simp [PriorityQueue.add]
  | cons y ys ih =>
      rcases List.pairwise_cons.mp hpw with ⟨hy, hys⟩
      by_cases h : prioLt x y
      · have hx1 : x.1 < y.1 := by simpa [prioLt] using h
        simp only [PriorityQueue.add, h, if_true]
        refine List.pairwise_cons.mpr ⟨?_, hpw⟩
        intro z hz
        rcases List.mem_cons.mp hz with rfl | hz
        · exact Or.inl hx1
        · rcases hy z hz with h1 | ⟨h1, _⟩
          · exact Or.inl (lt_trans hx1 h1)
          · exact Or.inl (h1 ▸ hx1)
      · have hyx : y.1 ≤ x.1 := le_of_not_lt (by simpa [prioLt] using h)
        simp only [PriorityQueue.add, h, if_false]
        refine List.pairwise_cons.mpr
          ⟨?_, ih hys (fun z hz => htag z (List.mem_cons_of_mem y hz))⟩
        intro z hz
        have hz' : z = x ∨ z ∈ ys := by
          have := (PriorityQueue.add_perm prioLt x ys).mem_iff.mp hz
          simpa using this
        rcases hz' with rfl | hz'
        · rcases lt_or_eq_of_le hyx with h1 | h1
          · exact Or.inl h1
          · exact Or.inr ⟨h1, htag y (List.mem_cons_self y ys)⟩
        · exact hy z hz'

/-- Invariant of a run of `add` calls: strict `prioTagLt` ordering is
maintained and all tags stay below the next tag to be issued. -/
theorem pqAddAll_pairwise {α : Type} [LinearOrder α] (ps : List α) :
    ∀ (n : Nat) (q : List (α × Nat)), q.Pairwise prioTagLt → (∀ y ∈ q, y.2 < n) →
      (pqAddAll ps n q).Pairwise prioTagLt ∧
        ∀ y ∈ pqAddAll ps n q, y.2 < n + ps.length := by
  induction ps with
  | nil =>
      intro n q hpw htag
      exact ⟨hpw, by simpa [pqAddAll] using htag⟩
  | cons p ps ih =>
      intro n q hpw htag
      have hpw' : (PriorityQueue.add prioLt (p, n) q).Pairwise prioTagLt :=
        PriorityQueue.add_pairwise (p, n) q hpw htag
      have htag' : ∀ y ∈ PriorityQueue.add prioLt (p, n) q, y.2 < n + 1 := by
        intro y hy
        have hy' : y = (p, n) ∨ y ∈ q := by
          have := (PriorityQueue.add_perm prioLt (p, n) q).mem_iff.mp hy
          simpa using this
        rcases hy' with rfl | hy'
        · exact Nat.lt_succ_self n
        · exact Nat.lt_succ_of_lt (htag y hy')
      have := ih (n + 1) (PriorityQueue.add prioLt (p, n) q) hpw' htag'
      refine ⟨this.1, ?_⟩
      intro y hy
      have := this.2 y hy
      simpa [Nat.add_assoc, Nat.add_comm, Nat.add_left_comm] using this

/-- A run of `add` calls holds exactly the prior contents plus the tagged
insertions. -/
theorem pqAddAll_perm {α : Type} [LinearOrder α] (ps : List α) :
    ∀ (n : Nat) (q : List (α × Nat)),
      List.Perm (pqAddAll ps n q) (q ++ tagFrom ps n) := by
  induction ps with
  | nil => intro n q; simp [pqAddAll, tagFrom]
  | cons p ps ih =>
      intro n q
      have h1 := ih (n + 1) (PriorityQueue.add prioLt (p, n) q)
      have h2 : List.Perm
          (PriorityQueue.add prioLt (p, n) q ++ tagFrom ps (n + 1))
          (((p, n) :: q) ++ tagFrom ps (n + 1)) :=
        (PriorityQueue.add_perm prioLt (p, n) q).append_right _
      have h3 : List.Perm (((p, n) :: q) ++ tagFrom ps (n + 1))
          (q ++ (p, n) :: tagFrom ps (n + 1)) := List.perm_middle.symm
      simpa [pqAddAll, tagFrom] using h1.trans (h2.trans h3)

/-- Draining via `remove()` returns the internal list front first. -/
theorem pqRemoveAll_eq {α : Type} (l : List α) : pqRemoveAll l = l := by
  induction l with
  | nil => rfl
  | cons x xs ih => simp [pqRemoveAll, ih]

/-- Claim C3: for every sequence of `add` calls, successive `remove()` calls
return the inserted items (a) each exactly once, (b) in non-decreasing order
of the element comparison, and (c) FIFO among items that compare equal
(tags — insertion positions — strictly increase within an equal-priority
run). -/
theorem pq_removes_sorted_stable {α : Type} [LinearOrder α] (ps : List α) :
    List.Perm (pqRemoveAll (pqAddAll ps 0 [])) (tagFrom ps 0) ∧
    (pqRemoveAll (pqAddAll ps 0 [])).Pairwise
      (fun a b : α × Nat => a.1 ≤ b.1) ∧
    (pqRemoveAll (pqAddAll ps 0 [])).Pairwise
      (fun a b : α × Nat => a.1 = b.1 → a.2 < b.2) := by
  have hpw := (pqAddAll_pairwise ps 0 [] (by simp) (by simp)).1
  have hperm := pqAddAll_perm ps 0 []
  rw [pqRemoveAll_eq]
  refine ⟨by simpa using hperm, ?_, ?_⟩
  · refine hpw.imp ?_
    intro a b h
    rcases h with h | ⟨h, _⟩
    · exact le_of_lt h
    · exact le_of_eq h
  · refine hpw.imp ?_
    intro a b h heq
    rcases h with h | ⟨_, h2⟩
    · exact absurd heq (ne_of_lt h)
    · exact h2

/-!  Concrete values used by witnesses and the C1 counter-evidence. -/

/-- A customer holding 8 one-second items (8 > EXPRESS_LIMIT). -/
def custEight : Customer :=
  { name := "Bo", items := List.replicate 8 { name := "x", time := 1 } }

/-- A customer with two items of times 3 and 4. -/
def custSeven : Customer :=
  { name := "Ada", items := [{ name := "chips", time := 4 }, { name := "gum", time := 3 }] }

/-- Claim C1 (the code violates it): `ExpressLine` inherits `can_accept`
unchanged from `CheckoutLine`, so the item-count ceiling `EXPRESS_LIMIT` is
never consulted — a freshly opened express line of capacity 1 accepts a
customer with 8 > EXPRESS_LIMIT items, and `accept` enqueues them. -/
theorem expressLine_accepts_over_limit :
    EXPRESS_LIMIT < custEight.num_items ∧
    (CheckoutLine.mkLine LineKind.express 1).can_accept custEight = true ∧
    ((CheckoutLine.mkLine LineKind.express 1).accept custEight).2 = true ∧
    ((CheckoutLine.mkLine LineKind.express 1).accept custEight).1.queue = [custEight] := by
  refine ⟨by decide, rfl, rfl, rfl⟩

/-- Claim C5: `close()` clears `is_open`, keeps exactly the front customer
(nothing when the queue was empty), returns the displaced customers in their
original relative order, and a second `close()` returns the empty list. -/
theorem close_spec (l : CheckoutLine) :
    (l.close).1.is_open = false ∧
    (l.close).1.queue = l.queue.take 1 ∧
    (l.close).2 = l.queue.drop 1 ∧
    ((l.close).1.close).2 = [] ∧
    (∀ c0 rest, l.queue = c0 :: rest → (l.close).1.queue = [c0] ∧ (l.close).2 = rest) := by
  have hq : (l.close).1.queue = l.queue.take 1 := by
    rcases hcase : l.queue with _ | ⟨c0, rest⟩
    · simp [CheckoutLine.close, hcase]
    · simp [CheckoutLine.close, hcase]
  refine ⟨rfl, hq, rfl, ?_, ?_⟩
  · show ((l.close).1.queue).drop 1 = []
    rw [hq]
    rcases l.queue with _ | ⟨c0, rest⟩ <;> simp
  · intro c0 rest hcase
    constructor
    · rw [hq, hcase]; rfl
    · show l.queue.drop 1 = rest
      rw [hcase]; rfl

/-- A concrete regular line of capacity 2 holding two customers. -/
def lineTwo : CheckoutLine :=
  { kind := LineKind.regular, capacity := 2, is_open := true,
    queue := [custSeven, custEight] }

/-- Witness for C5 at a two-customer line. -/
theorem close_spec_witness :
    lineTwo.close.1.is_open = false ∧
    lineTwo.close.1.queue = [custSeven] ∧
    lineTwo.close.2 = [custEight] := by
  have h := close_spec lineTwo
  have h2 := h.2.2.2.2 custSeven [custEight] rfl
  exact ⟨h.1, h2.1, h2.2⟩

/-- Claim C6: `next_checkout_time()` is 0 on an empty line; with a front
customer it is that customer's `item_time` on regular and express lines and
twice it on self-serve lines. -/
theorem next_checkout_time_spec (l : CheckoutLine) :
    (l.queue = [] → l.next_checkout_time = 0) ∧
    (∀ c rest, l.queue = c :: rest →
      ((l.kind = LineKind.regular ∨ l.kind = LineKind.express) →
        l.next_checkout_time = c.item_time) ∧
      (l.kind = LineKind.selfServe → l.next_checkout_time = 2 * c.item_time)) := by
  constructor
  · intro hq
    rcases hk : l.kind <;>
      simp [CheckoutLine.next_checkout_time, hk, hq]
  · intro c rest hq
    constructor
    · rintro (hk | hk) <;>
        simp [CheckoutLine.next_checkout_time, hk, hq, CheckoutLine.first_in_line]
    · intro hk
      simp [CheckoutLine.next_checkout_time, hk, hq, CheckoutLine.first_in_line]

/-- Witness for C6: a self-serve line charges twice the front customer's
item time (custSeven has item_time 7), and an empty regular line charges 0. -/
theorem next_checkout_time_spec_witness :
    ({ lineTwo with kind := LineKind.selfServe } : CheckoutLine).next_checkout_time = 14 ∧
    (CheckoutLine.mkLine LineKind.regular 1).next_checkout_time = 0 := by
  constructor
  · have h := (next_checkout_time_spec
      { lineTwo with kind := LineKind.selfServe }).2 custSeven [custEight] rfl
    have h2 := h.2 rfl
    rw [h2]
    decide
  · exact (next_checkout_time_spec (CheckoutLine.mkLine LineKind.regular 1)).1 rfl

/-- Claim C8: `remove_front_customer()` never fails — it drops exactly the
front element (touching nothing else) and returns the old length minus one;
on an empty queue it returns 0 and leaves the line entirely unchanged. -/
theorem remove_front_customer_spec (l : CheckoutLine) :
    (l.remove_front_customer).1.queue = l.queue.drop 1 ∧
    (l.remove_front_customer).1.is_open = l.is_open ∧
    (l.remove_front_customer).1.capacity = l.capacity ∧
    (l.remove_front_customer).1.kind = l.kind ∧
    (l.remove_front_customer).2 = l.queue.length - 1 ∧
    (l.queue = [] → l.remove_front_customer = (l, 0)) := by
  rcases hcase : l.queue with _ | ⟨c0, rest⟩
  · refine ⟨?_, ?_, ?_, ?_, ?_, ?_⟩ <;>
      simp [CheckoutLine.remove_front_customer, hcase]
  · refine ⟨?_, ?_, ?_, ?_, ?_, ?_⟩ <;>
      simp [CheckoutLine.remove_front_customer, hcase]

/-- Witness for C8 at an empty line and at a two-customer line. -/
theorem remove_front_customer_spec_witness :
    (CheckoutLine.mkLine LineKind.express 2).remove_front_customer
        = (CheckoutLine.mkLine LineKind.express 2, 0) ∧
    (lineTwo.remove_front_customer).1.queue = [custEight] := by
  constructor
  · exact (remove_front_customer_spec (CheckoutLine.mkLine LineKind.express 2)).2.2.2.2.2 rfl
  · have h := (remove_front_customer_spec lineTwo).1
    rw [h]
    rfl

/-!  Helper lemmas about `CheckoutLine`. -/

/-- `can_accept` unfolded: open and strictly below capacity. -/
theorem can_accept_iff (l : CheckoutLine) (c : Customer) :
    l.can_accept c = true ↔ (l.queue.length < l.capacity ∧ l.is_open = true) := by
  unfold CheckoutLine.can_accept
  by_cases h : l.queue.length < l.capacity ∧ l.is_open = true <;> simp [h]

/-- `accept` on an accepting line appends at the back. -/
theorem accept_of_can_accept (l : CheckoutLine) (c : Customer)
    (h : l.can_accept c = true) :
    l.accept c = ({ l with queue := l.queue ++ [c] }, true) := by
  simp [CheckoutLine.accept, h]

/-- `accept` on a rejecting line is a no-op returning `false`. -/
theorem accept_of_not_can_accept (l : CheckoutLine) (c : Customer)
    (h : l.can_accept c = false) :
    l.accept c = (l, false) := by
  simp [CheckoutLine.accept, h]

/-- No method call changes a line's capacity. -/
theorem applyLineOp_capacity (op : LineOp) (l : CheckoutLine) :
    (applyLineOp op l).capacity = l.capacity := by
  cases op with
  | acceptOp c =>
      by_cases h : l.can_accept c
      · simp [applyLineOp, CheckoutLine.accept, h]
      · simp [applyLineOp, CheckoutLine.accept, h]
  | removeFrontOp =>
      by_cases h : l.queue.length = 0 <;>
        simp [applyLineOp, CheckoutLine.remove_front_customer, h]
  | closeOp => simp [applyLineOp, CheckoutLine.close]
  | firstInLineOp => rfl
  | canAcceptOp c => rfl

/-- One method call preserves `length(queue) ≤ capacity`. -/
theorem applyLineOp_preserves_le (op : LineOp) (l : CheckoutLine)
    (h : l.queue.length ≤ l.capacity) :
    (applyLineOp op l).queue.length ≤ (applyLineOp op l).capacity := by
  rw [applyLineOp_capacity]
  cases op with
  | acceptOp c =>
      by_cases hc : l.can_accept c
      · have hlt := ((can_accept_iff l c).mp hc).1
        simp only [applyLineOp, CheckoutLine.accept, hc, if_true]
        simpa using hlt
      · simp only [applyLineOp, CheckoutLine.accept, hc, if_false]
        exact h
  | removeFrontOp =>
      by_cases he : l.queue.length = 0
      · simp only [applyLineOp, CheckoutLine.remove_front_customer, he, if_true]
        omega
      · simp only [applyLineOp, CheckoutLine.remove_front_customer, he, if_false]
        calc (l.queue.drop 1).length ≤ l.queue.length := by
              rw [List.length_drop]; omega
          _ ≤ l.capacity := h
  | closeOp =>
      simp only [applyLineOp, CheckoutLine.close]
      by_cases he : l.queue.length = 0
      · simp [he]
      · simp only [he, if_false]
        calc (l.queue.take 1).length ≤ l.queue.length := by
              rw [List.length_take]; omega
          _ ≤ l.capacity := h
  | firstInLineOp => exact h
  | canAcceptOp c => exact h

/-- The length-vs-capacity invariant survives any call sequence. -/
theorem applyLineOps_preserves_le (ops : List LineOp) :
    ∀ l : CheckoutLine, l.queue.length ≤ l.capacity →
      (applyLineOps ops l).queue.length ≤ (applyLineOps ops l).capacity := by
  induction ops with
  | nil => intro l h; exact h
  | cons op ops ih =>
      intro l h
      have hstep := applyLineOp_preserves_le op l h
      have : applyLineOps (op :: ops) l = applyLineOps ops (applyLineOp op l) := rfl
      rw [this]
      exact ih _ hstep

/-- Claim C7: starting from a line satisfying `length(queue) ≤ capacity`,
every sequence of the five public operations preserves the invariant, and in
particular a single `accept` never grows the queue beyond capacity. -/
theorem line_invariant_preserved (l : CheckoutLine) (h : l.queue.length ≤ l.capacity) :
    (∀ ops : List LineOp,
      (applyLineOps ops l).queue.length ≤ (applyLineOps ops l).capacity) ∧
    (∀ c : Customer, ((l.accept c).1).queue.length ≤ l.capacity) := by
  constructor
  · intro ops
    exact applyLineOps_preserves_le ops l h
  · intro c
    have := applyLineOp_preserves_le (LineOp.acceptOp c) l h
    rw [applyLineOp_capacity] at this
    exact this

/-- Witness for C7: a full line of capacity 2 after a close then an attempted
accept still satisfies the invariant. -/
theorem line_invariant_preserved_witness :
    (applyLineOps [LineOp.closeOp, LineOp.acceptOp custEight] lineTwo).queue.length ≤
      (applyLineOps [LineOp.closeOp, LineOp.acceptOp custEight] lineTwo).capacity ∧
    ((lineTwo.accept custEight).1).queue.length ≤ lineTwo.capacity := by
  have h := line_invariant_preserved lineTwo (by decide)
  exact ⟨h.1 [LineOp.closeOp, LineOp.acceptOp custEight], h.2 custEight⟩

/-!  Lemmas about the `enter_line` scan loop. -/

/-- The recorded position never increases along the scan. -/
theorem enterLineScan_le (c : Customer) (lines : List CheckoutLine) :
    ∀ (i : Nat) (best : Nat × Nat), (enterLineScan c lines i best).2 ≤ best.2 := by
  induction lines with
  | nil => intro i best; exact le_refl _
  | cons l0 rest ih =>
      intro i best
      rw [enterLineScan]
      by_cases h1 : l0.can_accept c = true
      · rw [if_pos h1]
        by_cases h2 : l0.queue.length < best.2
        · rw [if_pos h2]
          exact le_trans (ih (i + 1) (i, l0.queue.length)) (le_of_lt h2)
        · rw [if_neg h2]
          exact ih (i + 1) best
      · rw [if_neg h1]
        exact ih (i + 1) best

/-- The final position is at most the length of every accepting line. -/
theorem enterLineScan_min (c : Customer) (lines : List CheckoutLine) :
    ∀ (i : Nat) (best : Nat × Nat) (k : Nat) (l : CheckoutLine),
      lines[k]? = some l → l.can_accept c = true →
      (enterLineScan c lines i best).2 ≤ l.queue.length := by
  induction lines with
  | nil => intro i best k l hk _; simp at hk
  | cons l0 rest ih =>
      intro i best k l hk hacc
      cases k with
      | zero =>
          have hl : l0 = l := by simpa using hk
          subst hl
          rw [enterLineScan, if_pos hacc]
          by_cases h2 : l0.queue.length < best.2
          · rw [if_pos h2]
            exact enterLineScan_le c rest (i + 1) (i, l0.queue.length)
          · rw [if_neg h2]
            exact le_trans (enterLineScan_le c rest (i + 1) best) (Nat.le_of_not_lt h2)
      | succ k =>
          have hk' : rest[k]? = some l := by simpa using hk
          rw [enterLineScan]
          by_cases h1 : l0.can_accept c = true
          · rw [if_pos h1]
            by_cases h2 : l0.queue.length < best.2
            · rw [if_pos h2]
              exact ih (i + 1) (i, l0.queue.length) k l hk' hacc
            · rw [if_neg h2]
              exact ih (i + 1) best k l hk' hacc
          · rw [if_neg h1]
            exact ih (i + 1) best k l hk' hacc

/-- The scan either leaves the accumulator untouched or ends on some
accepting line, recording its absolute index and its length. -/
theorem enterLineScan_provenance (c : Customer) (lines : List CheckoutLine) :
    ∀ (i : Nat) (best : Nat × Nat),
      enterLineScan c lines i best = best ∨
      ∃ k l, lines[k]? = some l ∧ l.can_accept c = true ∧
        enterLineScan c lines i best = (i + k, l.queue.length) := by
  induction lines with
  | nil => intro i best; exact Or.inl rfl
  | cons l0 rest ih =>
      intro i best
      by_cases h1 : l0.can_accept c = true
      · by_cases h2 : l0.queue.length < best.2
        · have hstep : enterLineScan c (l0 :: rest) i best
              = enterLineScan c rest (i + 1) (i, l0.queue.length) := by
            rw [enterLineScan, if_pos h1, if_pos h2]
          rcases ih (i + 1) (i, l0.queue.length) with heq | ⟨k, l, hk, haccl, heq⟩
          · right
            refine ⟨0, l0, by simp, h1, ?_⟩
            rw [hstep, heq]
            simp
          · right
            refine ⟨k + 1, l, by simpa using hk, haccl, ?_⟩
            rw [hstep, heq]
            simp only [Prod.mk.injEq, and_true]
            omega
        · have hstep : enterLineScan c (l0 :: rest) i best
              = enterLineScan c rest (i + 1) best := by
            rw [enterLineScan, if_pos h1, if_neg h2]
          rcases ih (i + 1) best with heq | ⟨k, l, hk, haccl, heq⟩
          · left; rw [hstep, heq]
          · right
            refine ⟨k + 1, l, by simpa using hk, haccl, ?_⟩
            rw [hstep, heq]
            simp only [Prod.mk.injEq, and_true]
            omega
      · have hstep : enterLineScan c (l0 :: rest) i best
            = enterLineScan c rest (i + 1) best := by
          rw [enterLineScan, if_neg h1]
        rcases ih (i + 1) best with heq | ⟨k, l, hk, haccl, heq⟩
        · left; rw [hstep, heq]
        · right
          refine ⟨k + 1, l, by simpa using hk, haccl, ?_⟩
          rw [hstep, heq]
          simp only [Prod.mk.injEq, and_true]
          omega

/-- When no line accepts, the scan returns its seed unchanged. -/
theorem enterLineScan_of_none (c : Customer) (lines : List CheckoutLine) :
    ∀ (i : Nat) (best : Nat × Nat), (∀ l ∈ lines, l.can_accept c = false) →
      enterLineScan c lines i best = best := by
  induction lines with
  | nil => intro i best _; rfl
  | cons l0 rest ih =>
      intro i best h
      have h0 : l0.can_accept c = false := h l0 (List.mem_cons_self l0 rest)
      have h1 : ¬ (l0.can_accept c = true) := by simp [h0]
      rw [enterLineScan, if_neg h1]
      exact ih (i + 1) best (fun l hl => h l (List.mem_cons_of_mem l0 hl))

/-- Every accumulator replacement strictly lowers the position, so a scan
that ends on the seeded position never replaced the seed at all. -/
theorem enterLineScan_eq_of_snd (c : Customer) (lines : List CheckoutLine) :
    ∀ (i : Nat) (best : Nat × Nat),
      (enterLineScan c lines i best).2 = best.2 → enterLineScan c lines i best = best := by
  induction lines with
  | nil => intro i best _; rfl
  | cons l0 rest ih =>
      intro i best h
      by_cases h1 : l0.can_accept c = true
      · by_cases h2 : l0.queue.length < best.2
        · exfalso
          have hstep : enterLineScan c (l0 :: rest) i best
              = enterLineScan c rest (i + 1) (i, l0.queue.length) := by
            rw [enterLineScan, if_pos h1, if_pos h2]
          have hle := enterLineScan_le c rest (i + 1) (i, l0.queue.length)
          rw [hstep] at h
          simp only at hle
          omega
        · have hstep : enterLineScan c (l0 :: rest) i best
              = enterLineScan c rest (i + 1) best := by
            rw [enterLineScan, if_pos h1, if_neg h2]
          rw [hstep] at h ⊢
          exact ih (i + 1) best h
      · have hstep : enterLineScan c (l0 :: rest) i best
            = enterLineScan c rest (i + 1) best := by
          rw [enterLineScan, if_neg h1]
        rw [hstep] at h ⊢
        exact ih (i + 1) best h

/-- Tie-breaking: provided the seed either is strictly beaten by every
accepting line or already names an index at or before the remaining lines,
the scan ends at the earliest accepting line achieving the final position. -/
theorem enterLineScan_first (c : Customer) (lines : List CheckoutLine) :
    ∀ (i : Nat) (best : Nat × Nat),
      (∀ k l, lines[k]? = some l → l.can_accept c = true →
        l.queue.length < best.2 ∨ (best.2 ≤ l.queue.length ∧ best.1 ≤ i + k)) →
      ∀ k l, lines[k]? = some l → l.can_accept c = true →
        l.queue.length = (enterLineScan c lines i best).2 →
        (enterLineScan c lines i best).1 ≤ i + k := by
  induction lines with
  | nil => intro i best _ k l hk; simp at hk
  | cons l0 rest ih =>
      intro i best H k l hk hacc hlen
      by_cases h1 : l0.can_accept c = true
      · by_cases h2 : l0.queue.length < best.2
        · have hstep : enterLineScan c (l0 :: rest) i best
              = enterLineScan c rest (i + 1) (i, l0.queue.length) := by
            rw [enterLineScan, if_pos h1, if_pos h2]
          have H' : ∀ k' l', rest[k']? = some l' → l'.can_accept c = true →
              l'.queue.length < (i, l0.queue.length).2 ∨
                ((i, l0.queue.length).2 ≤ l'.queue.length ∧
                  (i, l0.queue.length).1 ≤ (i + 1) + k') := by
            intro k' l' _ _
            rcases Nat.lt_or_ge l'.queue.length l0.queue.length with hlt | hge
            · exact Or.inl hlt
            · exact Or.inr ⟨hge, by omega⟩
          cases k with
          | zero =>
              have hl : l0 = l := by simpa using hk
              subst hl
              rw [hstep] at hlen ⊢
              have heq2 : (enterLineScan c rest (i + 1) (i, l0.queue.length)).2
                  = (i, l0.queue.length).2 := by simpa using hlen.symm
              rw [enterLineScan_eq_of_snd c rest (i + 1) (i, l0.queue.length) heq2]
              omega
          | succ k =>
              have hk' : rest[k]? = some l := by simpa using hk
              rw [hstep] at hlen ⊢
              have := ih (i + 1) (i, l0.queue.length) H' k l hk' hacc hlen
              omega
        · have hstep : enterLineScan c (l0 :: rest) i best
              = enterLineScan c rest (i + 1) best := by
            rw [enterLineScan, if_pos h1, if_neg h2]
          have H' : ∀ k' l', rest[k']? = some l' → l'.can_accept c = true →
              l'.queue.length < best.2 ∨
                (best.2 ≤ l'.queue.length ∧ best.1 ≤ (i + 1) + k') := by
            intro k' l' hk' hacc'
            rcases H (k' + 1) l' (by simpa using hk') hacc' with h | ⟨ha, hb⟩
            · exact Or.inl h
            · exact Or.inr ⟨ha, by omega⟩
          cases k with
          | zero =>
              have hl : l0 = l := by simpa using hk
              subst hl
              rw [hstep] at hlen ⊢
              have h2' : best.2 ≤ l0.queue.length := Nat.le_of_not_lt h2
              have hb1 : best.1 ≤ i := by
                rcases H 0 l0 (by simp) h1 with h | ⟨_, hb⟩
                · omega
                · simpa using hb
              have hle := enterLineScan_le c rest (i + 1) best
              have heq2 : (enterLineScan c rest (i + 1) best).2 = best.2 := by omega
              rw [enterLineScan_eq_of_snd c rest (i + 1) best heq2]
              omega
          | succ k =>
              have hk' : rest[k]? = some l := by simpa using hk
              rw [hstep] at hlen ⊢
              have := ih (i + 1) best H' k l hk' hacc hlen
              omega
      · have hstep : enterLineScan c (l0 :: rest) i best
            = enterLineScan c rest (i + 1) best := by
          rw [enterLineScan, if_neg h1]
        have H' : ∀ k' l', rest[k']? = some l' → l'.can_accept c = true →
            l'.queue.length < best.2 ∨
              (best.2 ≤ l'.queue.length ∧ best.1 ≤ (i + 1) + k') := by
          intro k' l' hk' hacc'
          rcases H (k' + 1) l' (by simpa using hk') hacc' with h | ⟨ha, hb⟩
          · exact Or.inl h
          · exact Or.inr ⟨ha, by omega⟩
        cases k with
        | zero =>
            have hl : l0 = l := by simpa using hk
            subst hl
            exact absurd hacc h1
        | succ k =>
            have hk' : rest[k]? = some l := by simpa using hk
            rw [hstep] at hlen ⊢
            have := ih (i + 1) best H' k l hk' hacc hlen
            omega

/-- Full characterisation of a successful `enter_line` under the store's
representation invariants: the returned index names an accepting line of
minimal length — earliest among the minima — and the resulting store is the
old one with the customer appended to the back of exactly that line. -/
theorem enter_line_success (s : GroceryStore) (c : Customer) (hwf : s.WF)
    (l0 : CheckoutLine) (hl0 : l0 ∈ s.checkout_lines) (hacc0 : l0.can_accept c = true) :
    ∃ j line, s.checkout_lines[j]? = some line ∧ line.can_accept c = true ∧
      s.enter_line c =
        ({ s with checkout_lines :=
            s.checkout_lines.set j { line with queue := line.queue ++ [c] } }, some j) ∧
      (∀ i li, s.checkout_lines[i]? = some li → li.can_accept c = true →
        line.queue.length ≤ li.queue.length ∧
          (li.queue.length = line.queue.length → j ≤ i)) := by
  obtain ⟨hnum, hcap⟩ := hwf
  obtain ⟨k0, hk0lt, hk0⟩ := List.mem_iff_getElem.mp hl0
  have hk0' : s.checkout_lines[k0]? = some l0 := by
    rw [List.getElem?_eq_getElem hk0lt, hk0]
  have hlt0 : l0.queue.length < s.line_capacity := by
    have h := ((can_accept_iff l0 c).mp hacc0).1
    rw [hcap l0 hl0] at h
    exact h
  have hrle : (enterLineScan c s.checkout_lines 0 (s.num_lines, s.line_capacity)).2
      ≤ l0.queue.length :=
    enterLineScan_min c s.checkout_lines 0 (s.num_lines, s.line_capacity) k0 l0 hk0' hacc0
  rcases enterLineScan_provenance c s.checkout_lines 0 (s.num_lines, s.line_capacity)
    with heq | ⟨k, l, hk, haccl, heq⟩
  · exfalso
    rw [heq] at hrle
    simp only at hrle
    omega
  · have hrk : enterLineScan c s.checkout_lines 0 (s.num_lines, s.line_capacity)
        = (k, l.queue.length) := by
      rw [heq]
      simp
    have hklen : k < s.checkout_lines.length := by
      rcases List.getElem?_eq_some.mp hk with ⟨h, _⟩
      exact h
    have hklt : k < s.num_lines := by omega
    refine ⟨k, l, hk, haccl, ?_, ?_⟩
    · show enterLineFinish s c
        (enterLineScan c s.checkout_lines 0 (s.num_lines, s.line_capacity)) = _
      rw [hrk]
      unfold enterLineFinish
      dsimp only
      rw [if_pos hklt, hk]
      dsimp only
      rw [accept_of_can_accept l c haccl]
    · intro i li hi hacci
      constructor
      · have h := enterLineScan_min c s.checkout_lines 0
          (s.num_lines, s.line_capacity) i li hi hacci
        rw [hrk] at h
        simpa using h
      · intro hlen
        have H : ∀ k' l', s.checkout_lines[k']? = some l' → l'.can_accept c = true →
            l'.queue.length < (s.num_lines, s.line_capacity).2 ∨
              ((s.num_lines, s.line_capacity).2 ≤ l'.queue.length ∧
                (s.num_lines, s.line_capacity).1 ≤ 0 + k') := by
          intro k' l' hk' hacc'
          left
          have h := ((can_accept_iff l' c).mp hacc').1
          rw [hcap l' (List.getElem?_mem hk')] at h
          simpa using h
        have h := enterLineScan_first c s.checkout_lines 0 (s.num_lines, s.line_capacity)
          H i li hi hacci (by rw [hrk]; exact hlen)
        rw [hrk] at h
        simpa using h

/-- A failing `enterLineFinish` hands back the untouched store. -/
theorem enterLineFinish_none (s : GroceryStore) (c : Customer) (best : Nat × Nat)
    (h : (enterLineFinish s c best).2 = none) : (enterLineFinish s c best).1 = s := by
  unfold enterLineFinish at h ⊢
  by_cases hb : best.1 < s.num_lines
  · rw [if_pos hb] at h ⊢
    rcases hcase : s.checkout_lines[best.1]? with _ | line
    · rfl
    · rw [hcase] at h
      simp at h
  · rw [if_neg hb] at h ⊢

/-- A successful `enter_line` names an index holding a line that accepted the
customer (no well-formedness needed: the scan only records accepting lines). -/
theorem enter_line_some_accepting (s : GroceryStore) (c : Customer) (j : Nat)
    (h : (s.enter_line c).2 = some j) :
    ∃ line, s.checkout_lines[j]? = some line ∧ line.can_accept c = true := by
  have h' : (enterLineFinish s c (enterLineScan c s.checkout_lines 0
      (s.num_lines, s.line_capacity))).2 = some j := h
  rcases enterLineScan_provenance c s.checkout_lines 0 (s.num_lines, s.line_capacity)
    with heq | ⟨k, l, hk, haccl, heq⟩
  · exfalso
    rw [heq] at h'
    unfold enterLineFinish at h'
    dsimp only at h'
    rw [if_neg (Nat.lt_irrefl s.num_lines)] at h'
    simp at h'
  · have hrk : enterLineScan c s.checkout_lines 0 (s.num_lines, s.line_capacity)
        = (k, l.queue.length) := by
      rw [heq]
      simp
    rw [hrk] at h'
    unfold enterLineFinish at h'
    dsimp only at h'
    by_cases hb : k < s.num_lines
    · rw [if_pos hb, hk] at h'
      dsimp only at h'
      have hkj : k = j := by simpa using h'
      subst hkj
      exact ⟨l, hk, haccl⟩
    · rw [if_neg hb] at h'
      simp at h'

/-- Claim C2: when some line can accept the customer, `enter_line` appends
the customer to the back of an accepting line of minimal current length,
breaking ties by the lowest index, and returns that index. -/
theorem enter_line_picks_best (s : GroceryStore) (c : Customer) (hwf : s.WF)
    (l0 : CheckoutLine) (hl0 : l0 ∈ s.checkout_lines) (hacc0 : l0.can_accept c = true) :
    ∃ j line, s.checkout_lines[j]? = some line ∧ line.can_accept c = true ∧
      s.enter_line c =
        ({ s with checkout_lines :=
            s.checkout_lines.set j { line with queue := line.queue ++ [c] } }, some j) ∧
      (∀ i li, s.checkout_lines[i]? = some li → li.can_accept c = true →
        line.queue.length ≤ li.queue.length ∧
          (li.queue.length = line.queue.length → j ≤ i)) :=
  enter_line_success s c hwf l0 hl0 hacc0

/-- A concrete store: two empty regular lines of capacity 1. -/
def storeW : GroceryStore := GroceryStore.init 2 0 0 1

/-- Witness for C2: on `storeW` the theorem applies with the first line as
the accepting line. -/
theorem enter_line_picks_best_witness :
    ∃ j line, storeW.checkout_lines[j]? = some line ∧
      line.can_accept custSeven = true ∧
      storeW.enter_line custSeven =
        ({ storeW with checkout_lines :=
            storeW.checkout_lines.set j { line with queue := line.queue ++ [custSeven] } },
          some j) ∧
      (∀ i li, storeW.checkout_lines[i]? = some li →
        li.can_accept custSeven = true →
        line.queue.length ≤ li.queue.length ∧
          (li.queue.length = line.queue.length → j ≤ i)) :=
  enter_line_picks_best storeW custSeven (by decide)
    (CheckoutLine.mkLine LineKind.regular 1) (by decide) (by decide)

/-- Claim C4: under the representation invariants, `enter_line` fails (the
`NoAvailableLineError` case, modelled as `none`) exactly when no line can
accept the customer, and in that case the returned store — every line's
queue and open flag — is the input store unchanged. -/
theorem enter_line_error_iff (s : GroceryStore) (c : Customer) (hwf : s.WF) :
    ((s.enter_line c).2 = none ↔ ∀ l ∈ s.checkout_lines, l.can_accept c = false) ∧
    ((s.enter_line c).2 = none → (s.enter_line c).1 = s) := by
  constructor
  · constructor
    · intro hnone
      by_contra hex
      push_neg at hex
      obtain ⟨l0, hl0, hacc⟩ := hex
      have hacc' : l0.can_accept c = true := by
        cases hcb : l0.can_accept c
        · exact absurd hcb hacc
        · rfl
      obtain ⟨j, line, _, _, heq, _⟩ := enter_line_success s c hwf l0 hl0 hacc'
      rw [heq] at hnone
      simp at hnone
    · intro hall
      show (enterLineFinish s c (enterLineScan c s.checkout_lines 0
        (s.num_lines, s.line_capacity))).2 = none
      rw [enterLineScan_of_none c s.checkout_lines 0 (s.num_lines, s.line_capacity) hall]
      unfold enterLineFinish
      dsimp only
      rw [if_neg (Nat.lt_irrefl s.num_lines)]
  · intro hnone
    exact enterLineFinish_none s c (enterLineScan c s.checkout_lines 0
      (s.num_lines, s.line_capacity)) hnone

/-- A single closed regular line of capacity 1. -/
def closedLine : CheckoutLine :=
  { kind := LineKind.regular, capacity := 1, is_open := false, queue := [] }

/-- A store whose only line is closed. -/
def closedStore : GroceryStore :=
  { num_lines := 1, line_capacity := 1, checkout_lines := [closedLine] }

/-- Witness for C4: entering the fully closed store fails and leaves it
untouched. -/
theorem enter_line_error_iff_witness :
    (closedStore.enter_line custSeven).2 = none ∧
    (closedStore.enter_line custSeven).1 = closedStore := by
  have h := enter_line_error_iff closedStore custSeven (by decide)
  have hnone : (closedStore.enter_line custSeven).2 = none := h.1.mpr (by decide)
  exact ⟨hnone, h.2 hnone⟩

/-- A closed line rejects every customer. -/
theorem can_accept_of_closed (l : CheckoutLine) (h : l.is_open = false) (c : Customer) :
    l.can_accept c = false := by
  have hn : ¬ (l.queue.length < l.capacity ∧ l.is_open = true) := by
    rintro ⟨_, hopen⟩
    rw [h] at hopen
    exact Bool.false_ne_true hopen
  unfold CheckoutLine.can_accept
  rw [if_neg hn]

/-- No single method call reopens a closed line. -/
theorem applyLineOp_closed (op : LineOp) (l : CheckoutLine) (h : l.is_open = false) :
    (applyLineOp op l).is_open = false := by
  cases op with
  | acceptOp c =>
      show ((l.accept c).1).is_open = false
      rw [accept_of_not_can_accept l c (can_accept_of_closed l h c)]
      exact h
  | removeFrontOp =>
      by_cases he : l.queue.length = 0 <;>
        simp [applyLineOp, CheckoutLine.remove_front_customer, he, h]
  | closeOp => simp [applyLineOp, CheckoutLine.close]
  | firstInLineOp => exact h
  | canAcceptOp c => exact h

/-- Once closed, a line stays closed across any call sequence. -/
theorem applyLineOps_closed (ops : List LineOp) :
    ∀ l : CheckoutLine, l.is_open = false → (applyLineOps ops l).is_open = false := by
  induction ops with
  | nil => intro l h; exact h
  | cons op ops ih =>
      intro l h
      have hstep := applyLineOp_closed op l h
      have heq : applyLineOps (op :: ops) l = applyLineOps ops (applyLineOp op l) := rfl
      rw [heq]
      exact ih _ hstep

/-- Claim C10: once a line is closed (`is_open = false`), no sequence of
operations reopens it; a closed line rejects every customer and `accept`
returns `false` leaving the line untouched; and a successful `enter_line`
always names an open line. -/
theorem closed_line_stays_closed (l : CheckoutLine) (h : l.is_open = false) :
    (∀ ops : List LineOp, (applyLineOps ops l).is_open = false) ∧
    (∀ c : Customer, l.can_accept c = false) ∧
    (∀ c : Customer, l.accept c = (l, false)) ∧
    (∀ (s : GroceryStore) (c : Customer) (j : Nat), (s.enter_line c).2 = some j →
      ∃ line, s.checkout_lines[j]? = some line ∧ line.is_open = true) := by
  refine ⟨fun ops => applyLineOps_closed ops l h,
    fun c => can_accept_of_closed l h c,
    fun c => accept_of_not_can_accept l c (can_accept_of_closed l h c),
    ?_⟩
  intro s c j hj
  obtain ⟨line, hline, haccl⟩ := enter_line_some_accepting s c j hj
  exact ⟨line, hline, ((can_accept_iff line c).mp haccl).2⟩

/-- Witness for C10 at a concrete closed line: it stays closed after an
attempted accept and a front removal, rejects the customer, and `accept`
ignores them. -/
theorem closed_line_stays_closed_witness :
    (applyLineOps [LineOp.acceptOp custEight, LineOp.removeFrontOp] closedLine).is_open
        = false ∧
    closedLine.can_accept custSeven = false ∧
    closedLine.accept custSeven = (closedLine, false) := by
  have h := closed_line_stays_closed closedLine rfl
  exact ⟨h.1 [LineOp.acceptOp custEight, LineOp.removeFrontOp],
    h.2.1 custSeven, h.2.2.1 custSeven⟩

/-- Claim C9: the constructed store has `rc + ec + sc` lines — the regular
lines first, then the express lines, then the self-serve lines — and every
line carries capacity `cap` (and starts open and empty, as `mkLine` shows). -/
theorem init_layout (rc ec sc cap : Nat) :
    (GroceryStore.init rc ec sc cap).num_lines = rc + ec + sc ∧
    (GroceryStore.init rc ec sc cap).checkout_lines.length = rc + ec + sc ∧
    (∀ i, i < rc →
      (GroceryStore.init rc ec sc cap).checkout_lines[i]? =
        some (CheckoutLine.mkLine LineKind.regular cap)) ∧
    (∀ i, rc ≤ i → i < rc + ec →
      (GroceryStore.init rc ec sc cap).checkout_lines[i]? =
        some (CheckoutLine.mkLine LineKind.express cap)) ∧
    (∀ i, rc + ec ≤ i → i < rc + ec + sc →
      (GroceryStore.init rc ec sc cap).checkout_lines[i]? =
        some (CheckoutLine.mkLine LineKind.selfServe cap)) ∧
    (∀ l ∈ (GroceryStore.init rc ec sc cap).checkout_lines, l.capacity = cap) := by
  refine ⟨rfl, ?_, ?_, ?_, ?_, ?_⟩
  · simp only [GroceryStore.init, List.length_append, List.length_replicate]
  · intro i hi
    simp only [GroceryStore.init, List.getElem?_append, List.getElem?_replicate,
      List.length_append, List.length_replicate]
    split_ifs <;> first | rfl | (exfalso; omega)
  · intro i hi1 hi2
    simp only [GroceryStore.init, List.getElem?_append, List.getElem?_replicate,
      List.length_append, List.length_replicate]
    split_ifs <;> first | rfl | (exfalso; omega)
  · intro i hi1 hi2
    simp only [GroceryStore.init, List.getElem?_append, List.getElem?_replicate,
      List.length_append, List.length_replicate]
    split_ifs <;> first | rfl | (exfalso; omega)
  · intro l hl
    simp only [GroceryStore.init, List.mem_append, List.mem_replicate] at hl
    rcases hl with (⟨_, rfl⟩ | ⟨_, rfl⟩) | ⟨_, rfl⟩ <;> rfl

/-- Witness for C9 at counts 1, 2, 3 and capacity 4. -/
theorem init_layout_witness :
    (GroceryStore.init 1 2 3 4).checkout_lines[0]? =
        some (CheckoutLine.mkLine LineKind.regular 4) ∧
    (GroceryStore.init 1 2 3 4).checkout_lines[2]? =
        some (CheckoutLine.mkLine LineKind.express 4) ∧
    (GroceryStore.init 1 2 3 4).checkout_lines[5]? =
        some (CheckoutLine.mkLine LineKind.selfServe 4) := by
  have h := init_layout 1 2 3 4
  exact ⟨h.2.2.1 0 (by decide), h.2.2.2.1 2 (by decide) (by decide),
    h.2.2.2.2.1 5 (by decide) (by decide)⟩
